import Mathlib

set_option maxRecDepth 8000

/-!
Verification of the core of `alco` (`src/lib.rs`): the colorscheme tree
and its lookup (`value`) and `stringify` helpers, the path-tracking
substitution scanner inside `apply`, the pure selection logic of
`toggle`, and a small file-system model of the orchestration performed
by `apply` (config write, `current` marker directory).

Conventions of the embedding:
* `Yaml` mirrors yaml-rust's `Yaml` enum (the variants used by the
  program; `aliasRef` stands for `Alias`, `badValue` for `BadValue`).
* The event stream delivered by yaml-rust's `Parser` to the
  `ColorEventReceiver` closure is modelled as a list of `ScalarEvent`s
  (the closure ignores every non-scalar event).  Marker lines are
  1-based and columns 0-based, as in yaml-rust.
* Rust's `str::lines` is modelled character-exactly by `rustSplitAux`
  (split on `'\n'`, strip one trailing `'\r'` per piece, no final empty
  piece); byte indices into ASCII lines become character indices.
-/

namespace Alco

/-- Colorscheme tree, mirroring yaml-rust's `Yaml` enum. -/
inductive Yaml where
  | real (s : String)
  | integer (i : Int)
  | string (s : String)
  | boolean (b : Bool)
  | array (elems : List Yaml)
  | hash (entries : List (Yaml × Yaml))
  | aliasRef (id : Nat)
  | null
  | badValue

/-- Lookup `fn value(yaml: &Yaml, path: &[String]) -> Option<&Yaml>`:
descend one path segment at a time; inside a `Hash` the first entry
whose key is the matching string is taken (`h.iter().find(..)`), and a
missing entry aborts with `None` (the `?` operator); a non-`Hash`
current node leaves the node unchanged for that segment. -/
def value (yaml : Yaml) : List String → Option Yaml
  | [] => some yaml
  | key :: rest =>
    match yaml with
    | Yaml.hash h =>
      match h.find? (fun kv =>
        match kv.1 with
        | Yaml.string s => s == key
        | _ => false) with
      | some kv => value kv.2 rest
      | none => none
    | _ => value yaml rest

/-- `fn stringify(value: &Yaml) -> Option<String>`: single-quoted string,
decimal integer, `true`/`false`; every other variant yields `none`. -/
def stringify (v : Yaml) : Option String :=
  match v with
  | Yaml.string s => some ("'" ++ s ++ "'")
  | Yaml.integer i => some (toString i)
  | Yaml.boolean b => some (toString b)
  | _ => none

/-- One `Event::Scalar(name, ..)` together with its `Marker` position
(line 1-based, column 0-based), as observed by the receiver closure. -/
structure ScalarEvent where
  name : String
  line : Nat
  col : Nat

/-- Mutable state of the receiver closure in `apply`, minus the output
buffer: `current_path`, `last_line`, `last_col`, `line_index`. -/
structure Scan where
  currentPath : List String
  lastLine : Nat
  lastCol : Nat
  lineIndex : Nat

/-- Initial scanner state (`Vec::new()`, `0`, `0`, `0`). -/
def initScan : Scan := ⟨[], 0, 0, 0⟩

/-- Path-stack update of the receiver closure for a scalar event on a
new source line.  The `mark.col() < last_col` arm pops
`current_path.len() - indent` times (the `for _ in indent..len` loop),
which keeps the first `indent` segments: `List.take (e.col / 2)`. -/
def updatePath (s : Scan) (e : ScalarEvent) : Scan :=
  if e.col = s.lastCol then
    { s with currentPath := s.currentPath.dropLast ++ [e.name],
             lastLine := e.line, lastCol := e.col }
  else if e.col = s.lastCol + 2 then
    { s with currentPath := s.currentPath ++ [e.name],
             lastLine := e.line, lastCol := e.col }
  else if e.col < s.lastCol then
    { s with currentPath := s.currentPath.take (e.col / 2) ++ [e.name],
             lastLine := e.line, lastCol := e.col }
  else s

/-- Source lines `config_lines[a..b]` (`for i in a..b` copy loop). -/
def slice (lines : List (List Char)) (a b : Nat) : List (List Char) :=
  (lines.drop a).take (b - a)

/-- Join output lines, terminating each with `'\n'` (the
`push_str(line); push('\n')` pattern of `apply`). -/
def unlinesC (xs : List (List Char)) : List Char :=
  xs.foldr (fun l acc => l ++ '\n' :: acc) []

/-- The patching pass of `apply`, producing the output lines from
`line_index` onward: each scalar event on a new line updates the path
stack; a scalar event on the same line as the previous one is a value,
and when `value`/`stringify` succeed the untouched lines are copied,
the key prefix `config_lines[line-1][0..col]` is kept, the stringified
replacement is appended and `line_index` advances past the line.  After
the stream, the remaining lines are copied verbatim. -/
def patch (colors : Yaml) (lines : List (List Char)) :
    List ScalarEvent → Scan → List (List Char)
  | [], s => lines.drop s.lineIndex
  | e :: es, s =>
    if e.line ≠ s.lastLine then
      patch colors lines es (updatePath s e)
    else
      match (value colors s.currentPath).bind stringify with
      | some v =>
        slice lines s.lineIndex (e.line - 1) ++
          ((lines.getD (e.line - 1) []).take e.col ++ v.data) ::
            patch colors lines es { s with lineIndex := e.line }
      | none => patch colors lines es s

/-- Strip one trailing `'\r'` (Rust `str::lines` CRLF handling). -/
def stripCR (l : List Char) : List Char :=
  if l.getLast? = some '\r' then l.dropLast else l

/-- Split on `'\n'` accumulating the current piece in reverse.  A piece
terminated by `'\n'` has one trailing `'\r'` stripped (CRLF handling);
the final unterminated piece is dropped when empty and otherwise kept
verbatim — Rust `str::lines` includes a trailing lone carriage return
in the last line. -/
def rustSplitAux (acc : List Char) : List Char → List (List Char)
  | [] => if acc.isEmpty then [] else [acc.reverse]
  | c :: cs =>
    if c = '\n' then stripCR acc.reverse :: rustSplitAux [] cs
    else rustSplitAux (c :: acc) cs

/-- `config_str.lines().collect::<Vec<_>>()`. -/
def rustLines (s : String) : List (List Char) :=
  rustSplitAux [] s.data

/-- The in-memory rewrite of `apply`: split the configuration text into
lines, run the patching pass over the scalar-event stream, and join the
output lines LF-terminated.  This is the string passed to `fs::write`. -/
def applyText (colors : Yaml) (events : List ScalarEvent) (text : String) :
    String :=
  ⟨unlinesC (patch colors (rustLines text) events initScan)⟩

/-- Substitutions performed by the patching pass: target line index
(0-based), column, and replacement string.  This fold mirrors `patch`
but records the edits instead of building text; it does not depend on
the source lines at all. -/
def collectSubs (colors : Yaml) :
    List ScalarEvent → Scan → List (Nat × Nat × String)
  | [], _ => []
  | e :: es, s =>
    if e.line ≠ s.lastLine then
      collectSubs colors es (updatePath s e)
    else
      match (value colors s.currentPath).bind stringify with
      | some v =>
        (e.line - 1, e.col, v) :: collectSubs colors es { s with lineIndex := e.line }
      | none => collectSubs colors es s

/-- Apply a list of line edits (ascending target indices) to the
source lines from index `a` onward, copying untouched lines. -/
def editFrom (lines : List (List Char)) : Nat → List (Nat × Nat × String) → List (List Char)
  | a, [] => lines.drop a
  | a, (i, c, v) :: σ =>
    slice lines a i ++ ((lines.getD i []).take c ++ v.data) :: editFrom lines (i + 1) σ

/-- Well-formedness of an edit list against the source lines: targets
ascend from `a`, stay in bounds, and each column fits in its line. -/
def wfSubs (lines : List (List Char)) : Nat → List (Nat × Nat × String) → Bool
  | _, [] => true
  | a, (i, c, _) :: σ =>
    decide (a ≤ i) && decide (i < lines.length) &&
      decide (c ≤ (lines.getD i []).length) && wfSubs lines (i + 1) σ

/-- Two event streams that the scanner cannot distinguish: same marker
positions throughout, and same scalar text at every event the scanner
treats as a key (an event on a new source line).  Events on the same
line as the previous one (values) may carry different text — the
scanner never reads it. -/
def sameScan : List ScalarEvent → List ScalarEvent → Nat → Nat → Bool
  | [], [], _, _ => true
  | e :: es, f :: fs, lastLine, lastCol =>
    e.line == f.line && e.col == f.col &&
      (if e.line ≠ lastLine then
        e.name == f.name &&
          (if e.col == lastCol || e.col == lastCol + 2 || decide (e.col < lastCol) then
            sameScan es fs e.line e.col
          else
            sameScan es fs lastLine lastCol)
      else sameScan es fs lastLine lastCol)
  | _, _, _, _ => false

/-- Lexicographic order on strings by code point, matching the byte
order Rust's `sort` uses on UTF-8 strings. -/
def strLt : List Char → List Char → Bool
  | [], [] => false
  | [], _ :: _ => true
  | _ :: _, [] => false
  | a :: as, b :: bs =>
    if a.toNat < b.toNat then true
    else if b.toNat < a.toNat then false
    else strLt as bs

/-- Insertion into a sorted list of strings (ascending). -/
def insertSorted (x : String) : List String → List String
  | [] => [x]
  | y :: ys => if strLt y.data x.data then y :: insertSorted x ys else x :: y :: ys

/-- Lexicographic sort, modelling `available_schemes.sort()`. -/
def sortStrings (l : List String) : List String :=
  l.foldr insertSorted []

/-- Pure selection logic of `toggle`: sort the listed schemes, find the
current one (from `status`, when available), step the index forward or
backward modulo the length (index 0 when there is no usable current
scheme), and pick that scheme; `none` when no schemes are available. -/
def toggleSelect (schemes : List String) (current : Option String)
    (reverse : Bool) : Option String :=
  if schemes.isEmpty then none
  else
    let sorted := sortStrings schemes
    let index : Nat :=
      match current with
      | some c =>
        match sorted.findIdx? (fun f => f == c) with
        | some i =>
          if reverse then (sorted.length + i - 1) % sorted.length
          else (i + 1) % sorted.length
        | none => 0
      | none => 0
    sorted[index]?

/-- File paths, modelled as segment lists (`Path::join` is append). -/
abbrev FPath := List String

/-- A flat file system: path ↦ file content, directories implicit. -/
abbrev FS := List (FPath × String)

/-- `fs::read_to_string`: the content of `p`, if present. -/
def fsRead (fs : FS) (p : FPath) : Option String :=
  (fs.find? (fun e => e.1 == p)).map (·.2)

/-- `fs::write`: create or overwrite the file at `p`. -/
def fsWrite (fs : FS) (p : FPath) (v : String) : FS :=
  (p, v) :: fs.filter (fun e => !(e.1 == p))

/-- Whether `p` lies strictly below directory `d`. -/
def underDir (d p : FPath) : Bool :=
  p.take d.length == d && decide (d.length < p.length)

/-- `fs::remove_dir_all`: drop every file below `d` (the call's error is
discarded by `apply`, so the model is total). -/
def removeDirAll (fs : FS) (d : FPath) : FS :=
  fs.filter (fun e => !underDir d e.1)

/-- File-system level model of `apply`: read and parse the colorscheme
(`parse_colors`), read the configuration, scan it into events (the
yaml-rust parser, abstracted as `scanConfig`; `none` is a parse error),
assemble the whole rewritten text in memory, write it back, then clear
the `current` marker directory and write the fresh marker named after
the scheme.  Failures return the file system exactly as it was at that
point, paired with `false`. -/
def applyFS (parseColors : String → Option Yaml)
    (scanConfig : String → Option (List ScalarEvent)) (marker : String)
    (fs : FS) (configFile schemeDir : FPath) (schemeFile : String) :
    FS × Bool :=
  match fsRead fs (schemeDir ++ [schemeFile]) with
  | none => (fs, false)
  | some schemeStr =>
    match parseColors schemeStr with
    | none => (fs, false)
    | some colors =>
      match fsRead fs configFile with
      | none => (fs, false)
      | some configStr =>
        match scanConfig configStr with
        | none => (fs, false)
        | some events =>
          let fs1 := fsWrite fs configFile (applyText colors events configStr)
          let fs2 := removeDirAll fs1 (schemeDir ++ ["current"])
          let fs3 := fsWrite fs2 (schemeDir ++ ["current", schemeFile]) marker
          (fs3, true)

/-- Colorscheme tree `{colors: {primary: {background: "0x1a1b26"}}}`. -/
def exColors : Yaml :=
  .hash [(.string "colors", .hash [(.string "primary",
    .hash [(.string "background", .string "0x1a1b26")])])]

/-- Scalar events the yaml-rust parser emits for `exConfig`: the three
keys on their own lines and the single-quoted value, whose marker
points at the opening quote (line 3, column 16). -/
def exEvents : List ScalarEvent :=
  [⟨"colors", 1, 0⟩, ⟨"primary", 2, 2⟩, ⟨"background", 3, 4⟩, ⟨"0x000000", 3, 16⟩]

/-- The configuration text of the selective-substitution example. -/
def exConfig : String := "colors:\n  primary:\n    background: '0x000000'\n"

/-- Colorscheme `{a: "x\ny"}` whose string value embeds a newline. -/
def nlColors : Yaml := .hash [(.string "a", .string "x\ny")]

/-- Scalar events of the first parse, over `a: b\n`. -/
def nlEventsFirst : List ScalarEvent := [⟨"a", 1, 0⟩, ⟨"b", 1, 3⟩]

/-- Scalar events of the second parse, over `a: 'x\ny'\n`: the
single-quoted scalar spans two source lines and folds the break to a
space, and its marker points at the opening quote (line 1, column 3). -/
def nlEventsSecond : List ScalarEvent := [⟨"a", 1, 0⟩, ⟨"x y", 1, 3⟩]

/-! ### Helper lemmas -/

theorem updatePath_lineIndex (s : Scan) (e : ScalarEvent) :
    (updatePath s e).lineIndex = s.lineIndex := by
  unfold updatePath
  split_ifs <;> rfl

theorem updatePath_last (s : Scan) (e : ScalarEvent) :
    (e.col = s.lastCol ∨ e.col = s.lastCol + 2 ∨ e.col < s.lastCol →
      (updatePath s e).lastLine = e.line ∧ (updatePath s e).lastCol = e.col) ∧
    (¬(e.col = s.lastCol ∨ e.col = s.lastCol + 2 ∨ e.col < s.lastCol) →
      updatePath s e = s) := by
  unfold updatePath
  split_ifs with h1 h2 h3 <;>
    refine ⟨fun hd => ?_, fun hn => ?_⟩ <;>
    first
      | exact ⟨rfl, rfl⟩
      | rfl
      | (exact absurd (Or.inl h1) hn)
      | (exact absurd (Or.inr (Or.inl h2)) hn)
      | (exact absurd (Or.inr (Or.inr h3)) hn)
      | (exfalso; tauto)

theorem dropLast_iterate (k : Nat) (l : List String) :
    List.dropLast^[k] l = l.take (l.length - k) := by
  induction k generalizing l with
  | zero => simp
  | succ k ih =>
    rw [Function.iterate_succ_apply, ih, List.length_dropLast, List.dropLast_eq_take,
      List.take_take]
    congr 1
    omega

theorem unlinesC_getLast (X : List (List Char)) (h : X ≠ []) :
    (unlinesC X).getLast? = some '\n' := by
  induction X with
  | nil => exact absurd rfl h
  | cons l X ih =>
    show (l ++ '\n' :: unlinesC X).getLast? = some '\n'
    cases X with
    | nil =>
      show (l ++ ['\n']).getLast? = some '\n'
      exact List.getLast?_concat l
    | cons m Y =>
      rw [List.getLast?_append,
        show ('\n' :: unlinesC (m :: Y)) = ['\n'] ++ unlinesC (m :: Y) from rfl,
        List.getLast?_append, ih (by simp)]
      rfl

theorem stripCR_eq_self (l : List Char) (h : l.getLast? ≠ some '\r') :
    stripCR l = l := by
  unfold stripCR
  rw [if_neg h]

theorem rustSplitAux_append : ∀ (l : List Char), '\n' ∉ l → ∀ (acc cs : List Char),
    rustSplitAux acc (l ++ '\n' :: cs) = stripCR (acc.reverse ++ l) :: rustSplitAux [] cs := by
  intro l
  induction l with
  | nil =>
    intro _ acc cs
    simp [rustSplitAux]
  | cons c l ih =>
    intro hl acc cs
    have hc : ¬(c = '\n') := fun hcc => hl (hcc ▸ List.mem_cons_self _ _)
    have hl' : '\n' ∉ l := fun hm => hl (List.mem_cons_of_mem _ hm)
    calc rustSplitAux acc (c :: l ++ '\n' :: cs)
        = rustSplitAux (c :: acc) (l ++ '\n' :: cs) := by
          simp [rustSplitAux, hc]
      _ = stripCR ((c :: acc).reverse ++ l) :: rustSplitAux [] cs := ih hl' (c :: acc) cs
      _ = stripCR (acc.reverse ++ c :: l) :: rustSplitAux [] cs := by
          simp [List.reverse_cons, List.append_assoc]

theorem rustSplit_unlinesC : ∀ (X : List (List Char)),
    (∀ l ∈ X, '\n' ∉ l ∧ l.getLast? ≠ some '\r') →
    rustSplitAux [] (unlinesC X) = X := by
  intro X
  induction X with
  | nil => intro _; rfl
  | cons l X ih =>
    intro h
    have hl := h l (List.mem_cons_self _ _)
    show rustSplitAux [] (l ++ '\n' :: unlinesC X) = l :: X
    rw [rustSplitAux_append l hl.1, List.reverse_nil, List.nil_append,
      stripCR_eq_self l hl.2, ih (fun m hm => h m (List.mem_cons_of_mem _ hm))]

theorem rustSplitAux_ne_nil : ∀ (cs acc : List Char), acc ≠ [] ∨ cs ≠ [] →
    rustSplitAux acc cs ≠ [] := by
  intro cs
  induction cs with
  | nil =>
    intro acc h
    rcases h with h | h
    · unfold rustSplitAux
      rw [if_neg (by simp [h])]
      simp
    · exact absurd rfl h
  | cons c cs ih =>
    intro acc _
    by_cases hc : c = '\n'
    · simp [rustSplitAux, hc]
    · simpa [rustSplitAux, hc] using ih (c :: acc) (Or.inl (by simp))

theorem patch_eq_nil (colors : Yaml) (lines : List (List Char)) :
    ∀ (E : List ScalarEvent) (s : Scan), patch colors lines E s = [] →
      lines.drop s.lineIndex = [] := by
  intro E
  induction E with
  | nil => intro s h; exact h
  | cons e es ih =>
    intro s h
    simp only [patch] at h
    split at h
    · have := ih _ h
      rwa [updatePath_lineIndex] at this
    · split at h
      · simp at h
      · exact ih _ h

theorem patch_no_subs (colors : Yaml) (lines : List (List Char))
    (hval : ∀ p, (value colors p).bind stringify = none) :
    ∀ (E : List ScalarEvent) (s : Scan), patch colors lines E s = lines.drop s.lineIndex := by
  intro E
  induction E with
  | nil => intro s; rfl
  | cons e es ih =>
    intro s
    simp only [patch]
    split
    · rw [ih, updatePath_lineIndex]
    · rw [hval s.currentPath]
      exact ih s

theorem underDir_child (d : FPath) (x : String) : underDir d (d ++ [x]) = true := by
  unfold underDir
  rw [List.take_left]
  simp

theorem patch_eq_editFrom (colors : Yaml) (lines : List (List Char)) :
    ∀ (E : List ScalarEvent) (s : Scan), (∀ e ∈ E, 1 ≤ e.line) →
      patch colors lines E s = editFrom lines s.lineIndex (collectSubs colors E s) := by
  intro E
  induction E with
  | nil => intro s _; rfl
  | cons e es ih =>
    intro s hE
    have he : 1 ≤ e.line := hE e (List.mem_cons_self _ _)
    have hes : ∀ x ∈ es, 1 ≤ x.line := fun x hx => hE x (List.mem_cons_of_mem _ hx)
    simp only [patch, collectSubs]
    split
    · rw [ih _ hes, updatePath_lineIndex]
    · cases hv : (value colors s.currentPath).bind stringify with
      | none => exact ih _ hes
      | some v =>
        dsimp only
        simp only [editFrom]
        have h1 : e.line - 1 + 1 = e.line := by omega
        rw [h1, ih _ hes]

theorem editFrom_self : ∀ (σ : List (Nat × Nat × String)) (a : Nat)
    (L₀ L₁ : List (List Char)), wfSubs L₀ a σ = true →
    L₁.drop a = editFrom L₀ a σ → editFrom L₁ a σ = L₁.drop a := by
  intro σ
  induction σ with
  | nil => intro a L₀ L₁ _ _; rfl
  | cons icv σ ih =>
    obtain ⟨i, c, v⟩ := icv
    intro a L₀ L₁ hwf hdrop
    simp only [wfSubs, Bool.and_eq_true, decide_eq_true_eq] at hwf
    obtain ⟨⟨⟨ha, hi⟩, hc⟩, hwf'⟩ := hwf
    simp only [editFrom] at hdrop ⊢
    have hAlen : (slice L₀ a i).length = i - a := by
      unfold slice
      rw [List.length_take, List.length_drop]
      omega
    have htake : slice L₁ a i = slice L₀ a i := by
      show (L₁.drop a).take (i - a) = _
      rw [hdrop, ← hAlen, List.take_left]
    have hgetD : L₁.getD i [] = (L₀.getD i []).take c ++ v.data := by
      rw [List.getD_eq_getElem?_getD]
      have h1 : L₁[i]? = (L₁.drop a)[i - a]? := by
        rw [List.getElem?_drop]
        congr 1
        omega
      rw [h1, hdrop, List.getElem?_append_right (by omega : (slice L₀ a i).length ≤ i - a),
        hAlen]
      simp
    have hted : ((L₀.getD i []).take c ++ v.data).take c ++ v.data =
        (L₀.getD i []).take c ++ v.data := by
      have hlen : ((L₀.getD i []).take c).length = c := by
        rw [List.length_take]
        omega
      rw [List.take_left' hlen]
    have hdrop' : L₁.drop (i + 1) = editFrom L₀ (i + 1) σ := by
      have h2 : L₁.drop (i + 1) = (L₁.drop a).drop (i + 1 - a) := by
        rw [List.drop_drop]
        congr 1
        omega
      have h3 : slice L₀ a i ++ ((L₀.getD i []).take c ++ v.data) :: editFrom L₀ (i + 1) σ =
          (slice L₀ a i ++ [(L₀.getD i []).take c ++ v.data]) ++ editFrom L₀ (i + 1) σ := by
        simp
      rw [h2, hdrop, h3, List.drop_left' (by rw [List.length_append, hAlen]; simp; omega)]
    rw [htake, hgetD, hted, ih (i + 1) L₀ L₁ hwf' hdrop', hdrop', hdrop]

theorem collectSubs_sameScan (colors : Yaml) :
    ∀ (E E' : List ScalarEvent) (s : Scan),
      sameScan E E' s.lastLine s.lastCol = true →
      collectSubs colors E s = collectSubs colors E' s := by
  intro E
  induction E with
  | nil =>
    intro E' s h
    cases E' with
    | nil => rfl
    | cons f fs => simp [sameScan] at h
  | cons e es ih =>
    intro E' s h
    cases E' with
    | nil => simp [sameScan] at h
    | cons f fs =>
      simp only [sameScan, Bool.and_eq_true, beq_iff_eq] at h
      obtain ⟨⟨hline, hcol⟩, hrest⟩ := h
      by_cases hkey : e.line = s.lastLine
      · rw [if_neg (not_not_intro hkey)] at hrest
        simp only [collectSubs]
        rw [if_neg (not_not_intro hkey), if_neg (not_not_intro (hline ▸ hkey))]
        cases hv : (value colors s.currentPath).bind stringify with
        | none => exact ih fs s hrest
        | some v =>
          dsimp only
          rw [← hline, ← hcol]
          exact congrArg _ (ih fs _ hrest)
      · rw [if_pos hkey] at hrest
        simp only [Bool.and_eq_true, beq_iff_eq] at hrest
        obtain ⟨hname, hrest⟩ := hrest
        have hef : f = e := by
          cases e
          cases f
          simp_all
        rw [hef]
        simp only [collectSubs]
        rw [if_pos hkey, if_pos hkey]
        by_cases hc2 : (e.col == s.lastCol || e.col == s.lastCol + 2 ||
            decide (e.col < s.lastCol)) = true
        · rw [if_pos hc2] at hrest
          have hd : e.col = s.lastCol ∨ e.col = s.lastCol + 2 ∨ e.col < s.lastCol := by
            simp at hc2
            omega
          have hlast := (updatePath_last s e).1 hd
          apply ih fs (updatePath s e)
          rw [hlast.1, hlast.2]
          exact hrest
        · rw [if_neg hc2] at hrest
          have hd : ¬(e.col = s.lastCol ∨ e.col = s.lastCol + 2 ∨ e.col < s.lastCol) := by
            simp at hc2
            omega
          rw [(updatePath_last s e).2 hd]
          exact ih fs s hrest

theorem filter_under_fsWrite_removeDirAll (fs1 : FS) (d p : FPath) (m : String)
    (hp : underDir d p = true) :
    (fsWrite (removeDirAll fs1 d) p m).filter (fun e => underDir d e.1) =
      [(p, m)] := by
  unfold fsWrite removeDirAll
  rw [List.filter_cons, if_pos (by simpa using hp)]
  congr 1
  rw [List.filter_filter, List.filter_filter]
  apply List.filter_eq_nil_iff.mpr
  intro a ha hcon
  simp only [Bool.and_eq_true, Bool.not_eq_true'] at hcon
  obtain ⟨⟨h1, -⟩, h2⟩ := hcon
  rw [h1] at h2
  exact Bool.noConfusion h2

/-! ### Claims -/

/-- C1: for the configuration text
`colors:\n  primary:\n    background: '0x000000'\n` and the colorscheme
tree `{colors: {primary: {background: "0x1a1b26"}}}`, the patching pass
of `apply` produces exactly
`colors:\n  primary:\n    background: '0x1a1b26'\n` — key text,
indentation and surrounding structure preserved, only the value span
replaced by the single-quoted replacement. -/
theorem applyText_selective_substitution :
    applyText exColors exEvents exConfig =
      "colors:\n  primary:\n    background: '0x1a1b26'\n" := by
  decide

/-- C2 counterexample: with a colorscheme tree carrying no keys at all,
the configuration text `a: b` (no trailing newline) is rewritten to
`a: b\n`, which is not byte-identical to the input. -/
theorem applyText_not_byte_identical :
    applyText (Yaml.hash []) [⟨"a", 1, 0⟩, ⟨"b", 1, 3⟩] "a: b" = "a: b\n" ∧
      "a: b\n" ≠ "a: b" :=
  ⟨by decide, by decide⟩

/-- C2 (amended): when no path resolves to a stringifiable leaf, the
patching pass outputs the input text with its line terminators
normalized: the text is split at LF, LF-terminated lines have one
trailing CR stripped, the final unterminated line is kept verbatim,
and every line is re-terminated with a single LF — byte-identical to
the input exactly when the input is already in that normal form. -/
theorem applyText_no_match_normalizes (colors : Yaml) (events : List ScalarEvent)
    (text : String) (h : ∀ p, (value colors p).bind stringify = none) :
    applyText colors events text = ⟨unlinesC (rustLines text)⟩ ∧
      (text = ⟨unlinesC (rustLines text)⟩ → applyText colors events text = text) := by
  have h1 : applyText colors events text = ⟨unlinesC (rustLines text)⟩ := by
    unfold applyText
    rw [patch_no_subs colors (rustLines text) h events initScan,
      show initScan.lineIndex = 0 from rfl, List.drop_zero]
  exact ⟨h1, fun ht => by rw [h1, ← ht]⟩

/-- C2 witness: an already LF-normalized input is returned byte-identical
when the colorscheme tree is an empty mapping. -/
theorem applyText_no_match_normalizes_witness :
    applyText (Yaml.hash []) [⟨"a", 1, 0⟩, ⟨"b", 1, 3⟩] "a: b\n" = "a: b\n" :=
  (applyText_no_match_normalizes (Yaml.hash []) [⟨"a", 1, 0⟩, ⟨"b", 1, 3⟩] "a: b\n"
    (fun p => by cases p <;> rfl)).2 (by decide)

/-- C3: the path-stack update for a scalar event on a new source line:
at the same column it pops one segment and pushes the name; at column
`last_col + 2` it pushes the name; at a smaller column it pops down to
depth `col / 2` (iterated pops) and pushes, so afterwards the stack
below the new name has exactly `col / 2` entries; any other column
relation leaves the path stack unchanged. -/
theorem updatePath_column_rules (s : Scan) (e : ScalarEvent) :
    (e.col = s.lastCol →
      (updatePath s e).currentPath = s.currentPath.dropLast ++ [e.name]) ∧
    (e.col = s.lastCol + 2 →
      (updatePath s e).currentPath = s.currentPath ++ [e.name]) ∧
    (e.col < s.lastCol →
      (updatePath s e).currentPath =
        List.dropLast^[s.currentPath.length - e.col / 2] s.currentPath ++ [e.name] ∧
      (e.col / 2 ≤ s.currentPath.length →
        ((updatePath s e).currentPath).dropLast.length = e.col / 2)) ∧
    (e.col ≠ s.lastCol → e.col ≠ s.lastCol + 2 → ¬e.col < s.lastCol →
      (updatePath s e).currentPath = s.currentPath) := by
  refine ⟨fun h1 => ?_, fun h2 => ?_, fun h3 => ⟨?_, fun hle => ?_⟩,
    fun h1 h2 h3 => ?_⟩
  · unfold updatePath
    rw [if_pos h1]
  · unfold updatePath
    rw [if_neg (by omega), if_pos h2]
  · unfold updatePath
    rw [if_neg (by omega), if_neg (by omega), if_pos h3, dropLast_iterate]
    by_cases hle : e.col / 2 ≤ s.currentPath.length
    · have harith : s.currentPath.length - (s.currentPath.length - e.col / 2) =
          e.col / 2 := by omega
      rw [harith]
    · rw [List.take_of_length_le (by omega), List.take_of_length_le (by omega)]
  · unfold updatePath
    rw [if_neg (by omega), if_neg (by omega), if_pos h3, List.dropLast_concat,
      List.length_take]
    omega
  · unfold updatePath
    rw [if_neg h1, if_neg h2, if_neg h3]

/-- C3 witness: a dedent from column 4 to column 2 with path stack
`["colors", "primary", "background"]` keeps exactly the `2 / 2 = 1`
ancestor and pushes the new name. -/
theorem updatePath_column_rules_witness :
    (updatePath ⟨["colors", "primary", "background"], 3, 4, 0⟩
        ⟨"normal", 5, 2⟩).currentPath = ["colors", "normal"] := by
  have h := (updatePath_column_rules ⟨["colors", "primary", "background"], 3, 4, 0⟩
    ⟨"normal", 5, 2⟩).2.2.1 (by decide)
  rw [h.1]
  decide

/-- C4 counterexample: looking up the path `["b"]` in the mapping
`{a: 1}` yields no node at all — the "key not found" outcome the claim
says cannot happen. -/
theorem value_missing_key_none :
    value (Yaml.hash [(Yaml.string "a", Yaml.integer 1)]) ["b"] = none := rfl

/-- C4 (amended): the lookup returns the whole tree for the empty path,
and returns the current node unchanged when it is not a Mapping (descent
for the remaining segments is a no-op); only a segment missing from a
Mapping makes it return no node, and the caller distinguishes usable
results by the returned node's type. -/
theorem value_non_mapping_total :
    (∀ (y : Yaml) (p : List String), (∀ h, y ≠ Yaml.hash h) → value y p = some y) ∧
      ∀ y : Yaml, value y [] = some y := by
  constructor
  · intro y p hy
    induction p with
    | nil => rfl
    | cons k rest ih => cases y <;> first | exact absurd rfl (hy _) | exact ih
  · intro y
    rfl

/-- C4 witness: a string node is returned unchanged under a two-segment
path. -/
theorem value_non_mapping_total_witness :
    value (Yaml.string "0x1a1b26") ["colors", "primary"] =
      some (Yaml.string "0x1a1b26") :=
  value_non_mapping_total.1 _ _ (fun _ h => Yaml.noConfusion h)

/-- C5: `stringify` wraps strings in single quotes, renders integers in
decimal and booleans as `true`/`false`, and yields nothing for Mapping,
Sequence and Null nodes; consequently a value event whose path resolves
to a Mapping or Sequence node is skipped by the patching pass, leaving
its line to be copied verbatim. -/
theorem stringify_cases_and_guard :
    (∀ s, stringify (Yaml.string s) = some ("'" ++ s ++ "'")) ∧
    (∀ i, stringify (Yaml.integer i) = some (toString i)) ∧
    (stringify (Yaml.boolean true) = some "true" ∧
      stringify (Yaml.boolean false) = some "false") ∧
    (∀ h, stringify (Yaml.hash h) = none) ∧
    (∀ l, stringify (Yaml.array l) = none) ∧
    stringify Yaml.null = none ∧
    (∀ (colors : Yaml) (lines : List (List Char)) (es : List ScalarEvent)
        (s : Scan) (e : ScalarEvent) (v : Yaml),
      e.line = s.lastLine → value colors s.currentPath = some v →
      ((∃ h, v = Yaml.hash h) ∨ (∃ l, v = Yaml.array l)) →
      patch colors lines (e :: es) s = patch colors lines es s) := by
  refine ⟨fun s => rfl, fun i => rfl, ⟨rfl, rfl⟩, fun h => rfl, fun l => rfl, rfl, ?_⟩
  intro colors lines es s e v hline hv hm
  have hst : stringify v = none := by
    rcases hm with ⟨h, rfl⟩ | ⟨l, rfl⟩ <;> rfl
  simp only [patch]
  rw [if_neg (not_not_intro hline), hv, Option.some_bind, hst]

/-- C5 witness: a value event whose path resolves to the mapping under
`colors` is skipped. -/
theorem stringify_cases_and_guard_witness :
    patch exColors [] [⟨"0x000000", 2, 9⟩] ⟨["colors"], 2, 0, 0⟩ =
      patch exColors [] [] ⟨["colors"], 2, 0, 0⟩ :=
  stringify_cases_and_guard.2.2.2.2.2.2 exColors [] [] ⟨["colors"], 2, 0, 0⟩
    ⟨"0x000000", 2, 9⟩ _ rfl rfl (Or.inl ⟨_, rfl⟩)

/-- C6 counterexample: idempotence fails when a substituted string
value contains a newline.  With the colorscheme `{a: "x\ny"}` the
first apply rewrites `a: b\n` to `a: 'x\ny'\n`; re-scanning that text,
the quoted scalar spans two lines (marker at the opening quote), and
the second apply produces `a: 'x\ny'\ny'\n` — drift. -/
theorem applyText_not_idempotent :
    applyText nlColors nlEventsFirst "a: b\n" = "a: 'x\ny'\n" ∧
      applyText nlColors nlEventsSecond "a: 'x\ny'\n" = "a: 'x\ny'\ny'\n" ∧
      ("a: 'x\ny'\ny'\n" : String) ≠ "a: 'x\ny'\n" :=
  ⟨by decide, by decide, by decide⟩

/-- C6 (amended): applying the same colorscheme twice is drift-free
whenever the substituted values keep the scan well-formed — positive
marker lines, substitution targets ascending and in bounds with
columns inside their lines, output lines free of LF and of trailing CR
(in particular, no substituted string value embeds a newline), and a
second event stream that agrees with the first on all marker positions
and on the scalar text of key events (re-scanning the patched text
preserves these) — then patching the patched text reproduces it
unchanged. -/
theorem applyText_idempotent (colors : Yaml) (E E' : List ScalarEvent) (text : String)
    (hE : ∀ e ∈ E, 1 ≤ e.line) (hE' : ∀ e ∈ E', 1 ≤ e.line)
    (hscan : sameScan E E' 0 0 = true)
    (hwf : wfSubs (rustLines text) 0 (collectSubs colors E initScan) = true)
    (hout : ∀ l ∈ patch colors (rustLines text) E initScan,
      '\n' ∉ l ∧ l.getLast? ≠ some '\r') :
    applyText colors E' (applyText colors E text) = applyText colors E text := by
  have hround : rustLines (applyText colors E text) =
      patch colors (rustLines text) E initScan := by
    show rustSplitAux []
      (unlinesC (patch colors (rustLines text) E initScan)) = _
    exact rustSplit_unlinesC _ hout
  have hcharE : patch colors (rustLines text) E initScan =
      editFrom (rustLines text) 0 (collectSubs colors E initScan) :=
    patch_eq_editFrom colors (rustLines text) E initScan hE
  have hcharE' : patch colors (patch colors (rustLines text) E initScan) E' initScan =
      editFrom (patch colors (rustLines text) E initScan) 0
        (collectSubs colors E' initScan) :=
    patch_eq_editFrom colors _ E' initScan hE'
  have hcoll : collectSubs colors E initScan = collectSubs colors E' initScan :=
    collectSubs_sameScan colors E E' initScan hscan
  have hid : editFrom (patch colors (rustLines text) E initScan) 0
      (collectSubs colors E initScan) = patch colors (rustLines text) E initScan := by
    have hd : (patch colors (rustLines text) E initScan).drop 0 =
        editFrom (rustLines text) 0 (collectSubs colors E initScan) := by
      rw [List.drop_zero]
      exact hcharE
    have hs := editFrom_self (collectSubs colors E initScan) 0 (rustLines text)
      (patch colors (rustLines text) E initScan) hwf hd
    rwa [List.drop_zero] at hs
  show (⟨unlinesC (patch colors (rustLines (applyText colors E text)) E' initScan)⟩ :
      String) = _
  rw [hround, hcharE', ← hcoll, hid]
  rfl

/-- C6 witness: the selective-substitution example is a fixpoint of a
second application. -/
theorem applyText_idempotent_witness :
    applyText exColors exEvents (applyText exColors exEvents exConfig) =
      applyText exColors exEvents exConfig :=
  applyText_idempotent exColors exEvents exEvents exConfig (by decide) (by decide)
    (by decide) (by decide) (by decide)

/-- C7: `toggle` sorts the listed scheme names lexicographically and
selects index `(i + 1) % n` forward or `(n + i - 1) % n` in reverse from
the current scheme's position `i`; with schemes `[a, b, c]` forward from
`c` selects `a` and reverse from `a` selects `c`; with no current marker
or a current scheme that is no longer listed it selects index 0 of the
sorted list without failing; with no schemes at all it fails. -/
theorem toggleSelect_spec :
    (∀ c r, toggleSelect [] c r = none) ∧
    toggleSelect ["b", "c", "a"] (some "c") false = some "a" ∧
    toggleSelect ["b", "c", "a"] (some "a") true = some "c" ∧
    toggleSelect ["b", "c", "a"] none false = some "a" ∧
    toggleSelect ["b", "c", "a"] (some "zz") false = some "a" ∧
    (∀ (schemes : List String) (r : Bool), schemes ≠ [] →
      toggleSelect schemes none r = (sortStrings schemes)[0]?) ∧
    (∀ (schemes : List String) (c : String) (r : Bool), schemes ≠ [] →
      (sortStrings schemes).findIdx? (fun f => f == c) = none →
      toggleSelect schemes (some c) r = (sortStrings schemes)[0]?) ∧
    (∀ (schemes : List String) (c : String) (i : Nat), schemes ≠ [] →
      (sortStrings schemes).findIdx? (fun f => f == c) = some i →
      toggleSelect schemes (some c) false =
        (sortStrings schemes)[(i + 1) % (sortStrings schemes).length]? ∧
      toggleSelect schemes (some c) true =
        (sortStrings schemes)[((sortStrings schemes).length + i - 1) %
          (sortStrings schemes).length]?) := by
  refine ⟨fun c r => rfl, by decide, by decide, by decide, by decide, ?_, ?_, ?_⟩
  · intro schemes r h
    unfold toggleSelect
    rw [if_neg (by simp [List.isEmpty_iff, h])]
  · intro schemes c r h hf
    unfold toggleSelect
    rw [if_neg (by simp [List.isEmpty_iff, h])]
    simp only [hf]
  · intro schemes c i h hf
    constructor <;>
      · unfold toggleSelect
        rw [if_neg (by simp [List.isEmpty_iff, h])]
        simp [hf]

/-- C7 witness: with two unsorted scheme names and no current marker,
index 0 of the sorted list is selected. -/
theorem toggleSelect_spec_witness :
    toggleSelect ["solarized", "gruvbox"] none false = some "gruvbox" := by
  have h := toggleSelect_spec.2.2.2.2.2.1 ["solarized", "gruvbox"] false (by decide)
  rw [h]
  decide

/-- C8: the rewritten configuration is assembled wholly in memory before
any write; if `apply` fails before the write — colorscheme missing or
unparsable, configuration unreadable, configuration parse error — the
configuration file's content is unchanged. -/
theorem applyFS_failure_preserves_config (parseC : String → Option Yaml)
    (scanC : String → Option (List ScalarEvent)) (marker : String) (fs : FS)
    (configFile schemeDir : FPath) (schemeFile : String)
    (h : (applyFS parseC scanC marker fs configFile schemeDir schemeFile).2 = false) :
    fsRead (applyFS parseC scanC marker fs configFile schemeDir schemeFile).1
        configFile =
      fsRead fs configFile := by
  unfold applyFS at h ⊢
  cases h1 : fsRead fs (schemeDir ++ [schemeFile]) with
  | none => rfl
  | some schemeStr =>
    dsimp only
    rw [h1] at h
    dsimp only at h
    cases h2 : parseC schemeStr with
    | none => rfl
    | some colors =>
      dsimp only
      rw [h2] at h
      dsimp only at h
      cases h3 : fsRead fs configFile with
      | none => exact h3
      | some configStr =>
        dsimp only
        rw [h3] at h
        dsimp only at h
        cases h4 : scanC configStr with
        | none => exact h3
        | some events =>
          rw [h4] at h
          exact Bool.noConfusion h

/-- C8 witness: a missing colorscheme file leaves the configuration file
untouched. -/
theorem applyFS_failure_preserves_config_witness :
    fsRead (applyFS (fun _ => none) (fun _ => none) "" [(["cfg"], "x: 1\n")]
        ["cfg"] ["schemes"] "dark").1 ["cfg"] =
      fsRead [(["cfg"], "x: 1\n")] ["cfg"] :=
  applyFS_failure_preserves_config _ _ _ _ _ _ _ rfl

/-- C9: after every successful apply exactly one marker file exists under
the scheme directory's `current` subdirectory, and it is named after the
applied scheme — the directory is fully cleared and recreated before the
single fresh marker is written. -/
theorem applyFS_single_marker (parseC : String → Option Yaml)
    (scanC : String → Option (List ScalarEvent)) (marker : String) (fs : FS)
    (configFile schemeDir : FPath) (schemeFile : String)
    (h : (applyFS parseC scanC marker fs configFile schemeDir schemeFile).2 = true) :
    ((applyFS parseC scanC marker fs configFile schemeDir schemeFile).1.filter
        (fun e => underDir (schemeDir ++ ["current"]) e.1)).map Prod.fst =
      [schemeDir ++ ["current", schemeFile]] := by
  unfold applyFS at h ⊢
  cases h1 : fsRead fs (schemeDir ++ [schemeFile]) with
  | none =>
    rw [h1] at h
    exact Bool.noConfusion h
  | some schemeStr =>
    dsimp only
    rw [h1] at h
    dsimp only at h
    cases h2 : parseC schemeStr with
    | none =>
      rw [h2] at h
      exact Bool.noConfusion h
    | some colors =>
      dsimp only
      rw [h2] at h
      dsimp only at h
      cases h3 : fsRead fs configFile with
      | none =>
        rw [h3] at h
        exact Bool.noConfusion h
      | some configStr =>
        dsimp only
        rw [h3] at h
        dsimp only at h
        cases h4 : scanC configStr with
        | none =>
          rw [h4] at h
          exact Bool.noConfusion h
        | some events =>
          dsimp only
          rw [filter_under_fsWrite_removeDirAll _ _ _ _
            (by simpa using underDir_child (schemeDir ++ ["current"]) schemeFile)]
          rfl

/-- C9 witness: a concrete successful apply leaves exactly the fresh
marker below `current`. -/
theorem applyFS_single_marker_witness :
    ((applyFS (fun _ => some Yaml.null) (fun _ => some []) "changed: t\n"
        [(["cfg"], "x: 1\n"), (["schemes", "dark"], "a: 1\n"),
          (["schemes", "current", "old"], "z")]
        ["cfg"] ["schemes"] "dark").1.filter
      (fun e => underDir (["schemes"] ++ ["current"]) e.1)).map Prod.fst =
      [["schemes"] ++ ["current", "dark"]] :=
  applyFS_single_marker _ _ _ _ _ _ _ rfl

/-- C10 counterexample: a lone carriage return is not a line separator
for Rust `str::lines` and survives into the output unrewritten
(`a\rb` becomes `a\rb\n`, still containing CR), and the empty input
produces empty output with no trailing newline. -/
theorem applyText_lone_cr_preserved :
    applyText Yaml.null [] "a\rb" = "a\rb\n" ∧
      '\r' ∈ (applyText Yaml.null [] "a\rb").data ∧
      applyText Yaml.null [] "" = "" :=
  ⟨by decide, by decide, by decide⟩

/-- C10 (amended): every output line is LF-terminated, so the written
text ends with a newline whenever the input is nonempty (even when the
input lacked one) and CRLF separators become LF; but a lone CR is not a
separator and is preserved verbatim — both inside a line and as the
last character of a final unterminated line — and empty input yields
empty output. -/
theorem applyText_line_termination :
    (∀ (colors : Yaml) (events : List ScalarEvent) (text : String), text ≠ "" →
      (applyText colors events text).data.getLast? = some '\n') ∧
    applyText Yaml.null [] "a\r\nb" = "a\nb\n" ∧
    applyText Yaml.null [] "a\rb" = "a\rb\n" ∧
    applyText Yaml.null [] "a\r" = "a\r\n" ∧
    applyText Yaml.null [] "" = "" := by
  refine ⟨?_, by decide, by decide, by decide, by decide⟩
  intro colors events text h
  have hdata : text.data ≠ [] := by
    intro hd
    apply h
    obtain ⟨l⟩ := text
    rw [show l = [] from hd]
  have hlines : rustLines text ≠ [] :=
    rustSplitAux_ne_nil text.data [] (Or.inr hdata)
  have hpatch : patch colors (rustLines text) events initScan ≠ [] := by
    intro hp
    have hnil := patch_eq_nil colors (rustLines text) events initScan hp
    rw [show initScan.lineIndex = 0 from rfl, List.drop_zero] at hnil
    exact hlines hnil
  exact unlinesC_getLast _ hpatch

/-- C10 witness: a one-character input without trailing newline is
written back newline-terminated. -/
theorem applyText_line_termination_witness :
    (applyText Yaml.null [] "x").data.getLast? = some '\n' :=
  applyText_line_termination.1 Yaml.null [] "x" (by decide)

end Alco
